import Mathlib

/-!
Verification of the FFI boundary adapter `step` in `src/rs/step_c_abi.rs`
and of the Step Kernel `_step` it delegates to.

The adapter receives two raw `f32` buffer addresses and a signed 32-bit
dimension `n`, builds two slices of length `(n * n) as usize` over those
addresses with `slice::from_raw_parts` / `from_raw_parts_mut`, and calls
`_step(&mut r, d, n as usize)`.

Modelling choices:
* raw buffers are `List α` (the sequence of cells stored at the address);
  a slice of length `len` over a buffer is the prefix `List.take len`
  (building it copies nothing in the source; here we only need its
  contents and length);
* cells are an arbitrary type `α`, so theorems quantify over every 32-bit
  pattern (including NaN and Infinity payloads);
* `i32` arithmetic is `Int` arithmetic reduced into `[-2^31, 2^31)`
  (Rust release-mode wrapping semantics), and `as usize` on a 64-bit
  target is reduction modulo `2^64` into `Nat`;
* the kernel `_step` is not part of the source fragment; it is modelled
  from the spec (see `stepKernel` below).
-/

namespace StepC

/-- Reduction of an integer to the 32-bit signed (two's-complement) machine
value: the unique representative of `x` modulo `2^32` in `[-2^31, 2^31)`.
Models Rust release-mode wrapping arithmetic on `i32`. -/
def wrapI32 (x : Int) : Int := (x + 2 ^ 31) % 2 ^ 32 - 2 ^ 31

/-- Conversion of an `i32` value by an `as usize` cast on a 64-bit target:
sign-extension then reinterpretation as unsigned, i.e. reduction modulo
`2^64` into `[0, 2^64)`. -/
def i32AsUsize (x : Int) : Nat := (x % 2 ^ 64).toNat

/-- Length of the two slices the adapter constructs: `(n * n) as usize`,
where the multiplication is 32-bit signed wrapping multiplication. -/
def viewLen (n : Int) : Nat := i32AsUsize (wrapI32 (n * n))

/-- State visible to the Step Kernel: the input view `inp` (read-only slice
`d`) and the output view `out` (mutable slice `r`). -/
structure KernelState (α : Type) where
  inp : List α
  out : List α
deriving DecidableEq, Repr

/-- Modelled from the spec: the concrete per-cell update rule of the Step
Kernel is absent from the source fragment (spec §9, open question). A rule
maps the input view, the forwarded dimension `m` and a linear cell offset
`k = i*m + j` to the value of output cell `k`; per spec §4.2 it is a
function of the input view alone (it has no access to the output view). -/
abbrev Rule (α : Type) : Type := List α → Nat → Nat → α

/-- One loop iteration of the kernel: the single write
`out[k] := rule inp m k`.  Writing past the end of the view is modelled as
a no-op (`List.set` out of range); theorems about valid calls carry the
length hypotheses under which every write lands inside the view. -/
def writeCell (rule : Rule α) (m : Nat) (s : KernelState α) (k : Nat) : KernelState α :=
  { s with out := s.out.set k (rule s.inp m k) }

/-- Modelled from the spec: the Step Kernel `_step` (only its call site is
in the source fragment).  Per spec §4.2 it assigns every element of the
output view exactly once, each computed from the input view alone, with no
allocation and no retained state: one pass over all `m * m` linear cell
offsets performing the single write of each cell. -/
def stepKernel (rule : Rule α) (m : Nat) (s : KernelState α) : KernelState α :=
  (List.range (m * m)).foldl (writeCell rule m) s

/-- Shallow embedding of `step` from `src/rs/step_c_abi.rs`: build the
input view `d` and output view `r`, both of length `(n * n) as usize`,
over the two buffers, call `_step(&mut r, d, n as usize)`, and return.
The value of the call is the final contents of the two buffers, output
buffer first (the source's parameter order is `r_raw, d_raw, n`); the part
of each buffer beyond its view is untouched memory of the caller. -/
def step (rule : Rule α) (rbuf dbuf : List α) (n : Int) : List α × List α :=
  let len := viewLen n
  let s := stepKernel rule (i32AsUsize n) ⟨dbuf.take len, rbuf.take len⟩
  (s.out ++ rbuf.drop len, s.inp ++ dbuf.drop len)

/-! ### Basic kernel lemmas -/

theorem foldl_writeCell_inp (rule : Rule α) (m : Nat) (ks : List Nat) (s : KernelState α) :
    (ks.foldl (writeCell rule m) s).inp = s.inp := by
  induction ks generalizing s with
  | nil => rfl
  | cons k ks ih => rw [List.foldl_cons, ih]; rfl

theorem foldl_writeCell_out_length (rule : Rule α) (m : Nat) (ks : List Nat)
    (s : KernelState α) :
    (ks.foldl (writeCell rule m) s).out.length = s.out.length := by
  induction ks generalizing s with
  | nil => rfl
  | cons k ks ih => rw [List.foldl_cons, ih]; simp [writeCell]

theorem foldl_writeCell_out_getElem? (rule : Rule α) (m : Nat) (ks : List Nat)
    (s : KernelState α) (j : Nat) :
    (ks.foldl (writeCell rule m) s).out[j]? =
      if j ∈ ks ∧ j < s.out.length then some (rule s.inp m j) else s.out[j]? := by
  induction ks generalizing s with
  | nil => simp
  | cons k ks ih =>
    rw [List.foldl_cons, ih]
    simp only [writeCell, List.length_set, List.getElem?_set, List.mem_cons]
    by_cases hkj : k = j
    · subst hkj
      by_cases hlen : k < s.out.length
      · by_cases hks : k ∈ ks <;> simp [hks, hlen]
      · have h0 : s.out[k]? = none := List.getElem?_eq_none (by omega)
        by_cases hks : k ∈ ks <;> simp [hks, hlen, h0]
    · have hne : ¬ j = k := fun h => hkj h.symm
      by_cases hks : j ∈ ks <;> by_cases hlen : j < s.out.length <;>
        simp [hks, hlen, hkj, hne]

theorem stepKernel_inp (rule : Rule α) (m : Nat) (s : KernelState α) :
    (stepKernel rule m s).inp = s.inp :=
  foldl_writeCell_inp ..

theorem stepKernel_out_length (rule : Rule α) (m : Nat) (s : KernelState α) :
    (stepKernel rule m s).out.length = s.out.length :=
  foldl_writeCell_out_length ..

theorem stepKernel_out_getElem? (rule : Rule α) (m : Nat) (s : KernelState α) (j : Nat) :
    (stepKernel rule m s).out[j]? =
      if j < m * m ∧ j < s.out.length then some (rule s.inp m j) else s.out[j]? := by
  rw [stepKernel, foldl_writeCell_out_getElem?]
  simp [List.mem_range]

theorem step_snd (rule : Rule α) (rbuf dbuf : List α) (n : Int) :
    (step rule rbuf dbuf n).2 = dbuf := by
  show (stepKernel rule (i32AsUsize n)
      ⟨dbuf.take (viewLen n), rbuf.take (viewLen n)⟩).inp ++ dbuf.drop (viewLen n) = dbuf
  rw [stepKernel_inp]
  exact List.take_append_drop ..

/-- Concrete rule instance used by witnesses: output cell `k` holds input
cell `k` incremented by one (the claims hold for every rule; a specific one
is only needed to evaluate at concrete inputs). -/
def exRule : Rule Nat := fun inp _ k => (inp[k]?.getD 0) + 1

/-! ### Claim theorems -/

/-- C1 (amended to the adapter's non-overflowing dimension range
`0 ≤ n ≤ 46340`): `step(r_raw, d_raw, n)` squares `n` to an element count,
builds a read-only view of length `n*n` over the input address and a
mutable view of length `n*n` over the output address (no copying: the views
are the buffer prefixes themselves), forwards them to the Step Kernel, and
returns its result. -/
theorem C1_views (rule : Rule α) (n : Int) (h0 : 0 ≤ n) (h1 : n ≤ 46340)
    (rbuf dbuf : List α)
    (hd : (n * n).toNat ≤ dbuf.length) (hr : (n * n).toNat ≤ rbuf.length) :
    viewLen n = (n * n).toNat ∧
    i32AsUsize n = n.toNat ∧
    (dbuf.take (viewLen n)).length = (n * n).toNat ∧
    (rbuf.take (viewLen n)).length = (n * n).toNat ∧
    step rule rbuf dbuf n =
      ((stepKernel rule n.toNat
          ⟨dbuf.take (n * n).toNat, rbuf.take (n * n).toNat⟩).out
            ++ rbuf.drop (n * n).toNat,
       (stepKernel rule n.toNat
          ⟨dbuf.take (n * n).toNat, rbuf.take (n * n).toNat⟩).inp
            ++ dbuf.drop (n * n).toNat) := by
  have hsq1 : 0 ≤ n * n := mul_self_nonneg n
  have hsq2 : n * n < 2 ^ 31 := by nlinarith
  have hv : viewLen n = (n * n).toNat := by
    unfold viewLen i32AsUsize wrapI32; omega
  have hu : i32AsUsize n = n.toNat := by
    unfold i32AsUsize; omega
  refine ⟨hv, hu, ?_, ?_, ?_⟩
  · rw [hv, List.length_take]; omega
  · rw [hv, List.length_take]; omega
  · simp only [step]
    rw [hv, hu]

/-- C1 (counterexample): at `n = 46341` (a non-negative dimension) the
32-bit multiplication `n * n` overflows, so the length passed to
`from_raw_parts` is not `n*n`: the constructed views do not have length
`n*n`, refuting the claim for every call. -/
theorem C1_views_cex :
    (0 ≤ (46341 : Int)) ∧ viewLen 46341 ≠ ((46341 : Int) * 46341).toNat := by
  decide

/-- C1 witness at `n = 2` with buffers of four cells. -/
theorem C1_views_witness :
    viewLen 2 = ((2 : Int) * 2).toNat ∧
    i32AsUsize 2 = (2 : Int).toNat ∧
    (([1, 2, 3, 4] : List Nat).take (viewLen 2)).length = ((2 : Int) * 2).toNat ∧
    (([0, 0, 0, 0] : List Nat).take (viewLen 2)).length = ((2 : Int) * 2).toNat ∧
    step exRule [0, 0, 0, 0] [1, 2, 3, 4] 2 =
      ((stepKernel exRule (2 : Int).toNat
          ⟨([1, 2, 3, 4] : List Nat).take ((2 : Int) * 2).toNat,
           ([0, 0, 0, 0] : List Nat).take ((2 : Int) * 2).toNat⟩).out
            ++ ([0, 0, 0, 0] : List Nat).drop ((2 : Int) * 2).toNat,
       (stepKernel exRule (2 : Int).toNat
          ⟨([1, 2, 3, 4] : List Nat).take ((2 : Int) * 2).toNat,
           ([0, 0, 0, 0] : List Nat).take ((2 : Int) * 2).toNat⟩).inp
            ++ ([1, 2, 3, 4] : List Nat).drop ((2 : Int) * 2).toNat) :=
  C1_views exRule 2 (by decide) (by decide) [0, 0, 0, 0] [1, 2, 3, 4]
    (by decide) (by decide)

/-- C2: a call with `n = 0` is a valid no-op: the computed view length is
`0`, both constructed views are empty, the kernel performs no write and no
read (its loop body is never entered), and both buffers are returned
untouched. -/
theorem C2_zero_noop (rule : Rule α) (rbuf dbuf : List α) (s : KernelState α) :
    viewLen 0 = 0 ∧
    i32AsUsize 0 = 0 ∧
    (dbuf.take (viewLen 0)).length = 0 ∧
    (rbuf.take (viewLen 0)).length = 0 ∧
    stepKernel rule 0 s = s ∧
    step rule rbuf dbuf 0 = (rbuf, dbuf) := by
  have hv : viewLen 0 = 0 := by decide
  refine ⟨hv, by decide, by rw [hv]; rfl, by rw [hv]; rfl, rfl, ?_⟩
  have h2 := step_snd rule rbuf dbuf 0
  have h1 : (step rule rbuf dbuf 0).1 = rbuf := by
    show (stepKernel rule (i32AsUsize 0)
        ⟨dbuf.take (viewLen 0), rbuf.take (viewLen 0)⟩).out ++ rbuf.drop (viewLen 0) = rbuf
    rw [hv]
    rfl
  exact Prod.ext h1 h2

/-- C3: for a valid call (`n ≥ 0`, both buffers at least as long as the
constructed views; non-overlap is structural here, the two buffers being
distinct values), the input buffer is returned exactly as it was: the
kernel only ever writes the output view, so every input cell keeps its bit
pattern. -/
theorem C3_input_untouched (rule : Rule α) (n : Int) (h0 : 0 ≤ n)
    (rbuf dbuf : List α)
    (hd : viewLen n ≤ dbuf.length) (hr : viewLen n ≤ rbuf.length) :
    (step rule rbuf dbuf n).2 = dbuf :=
  step_snd rule rbuf dbuf n

/-- C3 witness at `n = 2` with buffers of four cells. -/
theorem C3_input_untouched_witness :
    (step exRule [9, 9, 9, 9] [1, 2, 3, 4] 2).2 = [1, 2, 3, 4] :=
  C3_input_untouched exRule 2 (by decide) [9, 9, 9, 9] [1, 2, 3, 4]
    (by decide) (by decide)

/-- C4: for `m ≥ 1` and an output view of the validated length `m*m`, the
kernel's single pass writes every output cell exactly once — the final
output view is the map of the rule over all `m*m` cell offsets, a value
independent of the view's prior contents (no sentinel survives, nothing is
read back from the output), and the sequence of write offsets, which is
exactly `List.range (m*m)`, has no duplicates. -/
theorem C4_writes_each_cell_once (rule : Rule α) (m : Nat) (s : KernelState α)
    (h1 : 1 ≤ m) (hlen : s.out.length = m * m) :
    (stepKernel rule m s).out = (List.range (m * m)).map (rule s.inp m) ∧
    (List.range (m * m)).Nodup := by
  refine ⟨?_, List.nodup_range _⟩
  apply List.ext_getElem?
  intro j
  rw [stepKernel_out_getElem?]
  by_cases hj : j < m * m
  · simp [hj, hlen, List.getElem?_range hj]
  · have hnone : s.out[j]? = none := List.getElem?_eq_none (by omega)
    have hnone' : ((List.range (m * m)).map (rule s.inp m))[j]? = none :=
      List.getElem?_eq_none (by simpa using by omega)
    simp [hj, hnone, hnone']

/-- C4 witness at `m = 2` on a sentinel-filled output view. -/
theorem C4_writes_each_cell_once_witness :
    (stepKernel exRule 2 ⟨[1, 2, 3, 4], [9, 9, 9, 9]⟩).out =
      (List.range (2 * 2)).map (exRule [1, 2, 3, 4] 2) ∧
    (List.range (2 * 2)).Nodup :=
  C4_writes_each_cell_once exRule 2 ⟨[1, 2, 3, 4], [9, 9, 9, 9]⟩
    (by decide) (by decide)

/-- C5: the kernel is deterministic: with the same input view and dimension
it produces the same output view whatever the output view held before the
call (so nothing depends on uninitialized memory, and two calls agree
bit-for-bit), and running the per-cell writes in the reversed iteration
order produces the same output view (no dependence on iteration order; no
state is carried between calls, the kernel being a function of its
arguments only). -/
theorem C5_deterministic (rule : Rule α) (m : Nat) (inp o₁ o₂ : List α)
    (h₁ : o₁.length = m * m) (h₂ : o₂.length = m * m) :
    (stepKernel rule m ⟨inp, o₁⟩).out = (stepKernel rule m ⟨inp, o₂⟩).out ∧
    ((List.range (m * m)).reverse.foldl (writeCell rule m) ⟨inp, o₁⟩).out =
      (stepKernel rule m ⟨inp, o₁⟩).out := by
  constructor
  · apply List.ext_getElem?
    intro j
    rw [stepKernel_out_getElem?, stepKernel_out_getElem?]
    by_cases hj : j < m * m
    · simp [hj, h₁, h₂]
    · have e₁ : (o₁ : List α)[j]? = none := List.getElem?_eq_none (by omega)
      have e₂ : (o₂ : List α)[j]? = none := List.getElem?_eq_none (by omega)
      simp [hj, e₁, e₂]
  · apply List.ext_getElem?
    intro j
    rw [stepKernel_out_getElem?, foldl_writeCell_out_getElem?]
    simp [List.mem_reverse, List.mem_range]

/-- C5 witness at `m = 1` with two different initial output views. -/
theorem C5_deterministic_witness :
    (stepKernel exRule 1 ⟨[3], [7]⟩).out = (stepKernel exRule 1 ⟨[3], [8]⟩).out ∧
    ((List.range (1 * 1)).reverse.foldl (writeCell exRule 1) ⟨[3], [7]⟩).out =
      (stepKernel exRule 1 ⟨[3], [7]⟩).out :=
  C5_deterministic exRule 1 [3] [7] [8] (by decide) (by decide)

/-- C7: totality: for every dimension and every cell contents (the cell
type is arbitrary, so every 32-bit pattern, NaN and Infinity included, is
covered), the kernel terminates with an output view of unchanged length,
and the whole call leaves the output buffer with its original length — a
defined result for every input. -/
theorem C7_total (rule : Rule α) (m : Nat) (s : KernelState α)
    (rbuf dbuf : List α) (n : Int) :
    (stepKernel rule m s).out.length = s.out.length ∧
    (step rule rbuf dbuf n).1.length = rbuf.length := by
  refine ⟨stepKernel_out_length .., ?_⟩
  show ((stepKernel rule (i32AsUsize n)
      ⟨dbuf.take (viewLen n), rbuf.take (viewLen n)⟩).out
        ++ rbuf.drop (viewLen n)).length = rbuf.length
  rw [List.length_append, stepKernel_out_length]
  simp only [List.length_take, List.length_drop]
  omega

/-- C8: the call communicates its result only through the output buffer:
the input buffer comes back unchanged, and the final output buffer is
exactly the kernel's output view followed by the untouched tail of the
caller's buffer — there is no other observable effect and no returned
value. -/
theorem C8_void_output_only (rule : Rule α) (rbuf dbuf : List α) (n : Int) :
    (step rule rbuf dbuf n).2 = dbuf ∧
    (step rule rbuf dbuf n).1 =
      (stepKernel rule (i32AsUsize n)
        ⟨dbuf.take (viewLen n), rbuf.take (viewLen n)⟩).out ++ rbuf.drop (viewLen n) :=
  ⟨step_snd rule rbuf dbuf n, rfl⟩

/-- C6: the adapter is a straight-line pass-through with no precondition
check and no error result: for every dimension (negative included) and
every pair of buffers (undersized or empty included) the call
unconditionally builds the two views and delegates to the kernel — its
behaviour is the same definitional delegation on violating inputs as on
valid ones, and its result type carries no failure value. -/
theorem C6_no_checks_no_errors (rule : Rule α) (rbuf dbuf : List α) (n : Int) :
    step rule rbuf dbuf n =
      ((stepKernel rule (i32AsUsize n)
          ⟨dbuf.take (viewLen n), rbuf.take (viewLen n)⟩).out
            ++ rbuf.drop (viewLen n),
       (stepKernel rule (i32AsUsize n)
          ⟨dbuf.take (viewLen n), rbuf.take (viewLen n)⟩).inp
            ++ dbuf.drop (viewLen n)) :=
  rfl

/-- C9 (amended): the adapter computes `n * n` in 32-bit signed arithmetic
before casting to `usize`, and over the whole `i32` range the computed view
length equals `n*n` exactly when `-46340 ≤ n ≤ 46340` — not only for
`0 ≤ n ≤ 46340`: squaring makes moderate negative dimensions give a
correct length too, while `|n| > 46340` overflows and gives a wrong one. -/
theorem C9_overflow_threshold (n : Int) (hlo : -(2 ^ 31) ≤ n) (hhi : n < 2 ^ 31) :
    viewLen n = (n * n).toNat ↔ (-46340 ≤ n ∧ n ≤ 46340) := by
  constructor
  · intro h
    by_contra hc
    push_neg at hc
    have hbig : (46341 : Int) * 46341 ≤ n * n := by
      rcases lt_or_le n (-46340) with hn | hn
      · nlinarith
      · have := hc hn
        nlinarith
    have hsmall : n * n ≤ 2 ^ 31 * 2 ^ 31 := by nlinarith
    unfold viewLen i32AsUsize wrapI32 at h
    omega
  · rintro ⟨ha, hb⟩
    have h1 : 0 ≤ n * n := mul_self_nonneg n
    have h2 : n * n ≤ 46340 * 46340 := by nlinarith
    unfold viewLen i32AsUsize wrapI32
    omega

/-- C9 (counterexample): at `n = -1` the computed view length is `1 = n*n`
although `n < 0`, so the view length being `n*n` does not hold only for
`0 ≤ n ≤ 46340` as claimed. -/
theorem C9_overflow_threshold_cex :
    viewLen (-1) = ((-1 : Int) * (-1)).toNat ∧ ¬ (0 ≤ (-1 : Int)) := by
  decide

/-- C9 witness at `n = 5`. -/
theorem C9_overflow_threshold_witness :
    viewLen 5 = ((5 : Int) * 5).toNat ↔ (-46340 ≤ (5 : Int) ∧ (5 : Int) ≤ 46340) :=
  C9_overflow_threshold 5 (by decide) (by decide)

/-- C10: for every negative `n` whose square does not overflow `i32`
(`-46340 ≤ n < 0`) the adapter builds views of positive length `n*n`, yet
forwards the dimension to the kernel as the sign-extended unsigned word
`2^64 + n`, whose square cannot match the view length: the forwarded
dimension and the view lengths are mutually inconsistent. -/
theorem C10_negative_dim_inconsistent (n : Int) (hlo : -46340 ≤ n) (hhi : n < 0) :
    0 < viewLen n ∧
    viewLen n = (n * n).toNat ∧
    (i32AsUsize n : Int) = 2 ^ 64 + n ∧
    i32AsUsize n * i32AsUsize n ≠ viewLen n := by
  have h1 : 0 < n * n := mul_pos_of_neg_of_neg hhi hhi
  have h2 : n * n ≤ 46340 * 46340 := by nlinarith
  have hv : viewLen n = (n * n).toNat := by
    unfold viewLen i32AsUsize wrapI32; omega
  have hu : (i32AsUsize n : Int) = 2 ^ 64 + n := by
    unfold i32AsUsize; omega
  refine ⟨by omega, hv, hu, ?_⟩
  have hx : i32AsUsize n ≤ i32AsUsize n * i32AsUsize n :=
    Nat.le_mul_of_pos_right _ (by omega)
  omega

/-- C10 witness at `n = -1`. -/
theorem C10_negative_dim_inconsistent_witness :
    0 < viewLen (-1) ∧
    viewLen (-1) = ((-1 : Int) * (-1)).toNat ∧
    (i32AsUsize (-1) : Int) = 2 ^ 64 + (-1) ∧
    i32AsUsize (-1) * i32AsUsize (-1) ≠ viewLen (-1) :=
  C10_negative_dim_inconsistent (-1) (by decide) (by decide)

end StepC
